import Mathlib

/-!
Shallow embedding of the mirror-synchronization engine of embyx
(src/mapping.py and src/monitor.py) together with proofs about the
claims of the specification.

Filesystem paths are modelled as lists of path components
(`FPath`).  Absolute-path functions (`map_strm_path`, `update_one`,
`delete_one`) operate on component lists that include the roots;
the full-sync pass (`update`, `delete`, `delete_empty_dirs`) is
modelled on paths relative to the two roots, exactly the way the
Python code works with `relative_to`/`glob` output.  `Path.resolve()`
is modelled as the identity: paths are taken to be already
normalised, symlink-free component lists.

Modification times are natural numbers; file trees are association
lists from paths to mtimes plus an explicit list of directories.
The identifier extractor (`get_avid`, an external collaborator) is a
parameter `getAvid : String → String`, with the empty string meaning
"no identifier recognised", mirroring the falsiness test in the code.
-/

namespace Embyx

/-- A filesystem path as a list of components. -/
abbrev FPath := List String

/-- The empty string (used where Python code compares against `''`). -/
def emptyStr : String := ""

/-- The mirrored extension, `'.strm'`. -/
def strmExt : String := ".strm"

/-- The final component of a path; `''` for the root, like `Path.name`. -/
def fileName (p : FPath) : String := p.getLastD emptyStr

/-- Boolean path-prefix test (`base` is an initial segment of `p`). -/
def isPre : FPath → FPath → Bool
  | [], _ => true
  | _ :: _, [] => false
  | a :: as, b :: bs => a == b && isPre as bs

/-- Python `PurePath.suffix`: with `i` the index of the last dot of the
final component, the slice from `i` when `0 < i < len(name) - 1`,
otherwise the empty string. -/
def pySuffix (name : String) : String :=
  let cs := name.toList
  match (cs.enum.filter (fun x => x.2 == '.')).getLast? with
  | none => emptyStr
  | some x => if 0 < x.1 && x.1 + 1 < cs.length then String.mk (cs.drop x.1) else emptyStr

/-- Python `str.lower()` (ASCII range, which covers the `.strm`
comparisons made by the code). -/
def pyLower (s : String) : String := String.mk (s.toList.map Char.toLower)

/-- `glob('*.strm')` filename test: the name ends with `.strm`
(fnmatch pattern matching, case sensitive). -/
def isStrmName (n : String) : Bool :=
  strmExt.toList.reverse.isPrefixOf n.toList.reverse

/-- `src.relative_to(base)`: the remaining components when `base` is an
initial segment of `src`, otherwise `none` (Python raises `ValueError`).
`resolve()` is modelled as the identity on normalised paths. -/
def relativeTo (p base : FPath) : Option FPath :=
  if isPre base p then some (p.drop base.length) else none

/-- `mapping.map_strm_path`: destination path for a source `.strm` file,
`none` when the suffix differs, the source is outside `src_dir`, or the
identifier extractor returns the empty string. -/
def map_strm_path (getAvid : String → String) (src srcDir dstDir : FPath) : Option FPath :=
  if pyLower (pySuffix (fileName src)) ≠ strmExt then none
  else
    match relativeTo src srcDir with
    | none => none
    | some rel =>
      let avid := getAvid (fileName src)
      if avid = emptyStr then none
      else some (dstDir ++ rel.dropLast ++ [avid, fileName src])

/-- `mapping.Counter`: per-run counters (`files_processed` is declared in
the source but never incremented). -/
structure Counter where
  files_processed : Nat
  files_updated : Nat
  files_skipped : Nat
  files_deleted : Nat
  dirs_deleted : Nat
deriving Repr, DecidableEq

/-- `mapping.reset_counter`: the all-zero counter value. -/
def Counter.zero : Counter := ⟨0, 0, 0, 0, 0⟩

/-- A file tree: an association list from paths to mtimes, plus the set of
existing directories. -/
structure FileSys where
  files : List (FPath × Nat)
  dirs : List FPath
deriving Repr, DecidableEq

/-- mtime of the file stored at `p`, if any (`stat().st_mtime`). -/
def getMtime (files : List (FPath × Nat)) (p : FPath) : Option Nat :=
  (files.find? (fun f => f.1 == p)).map (fun f => f.2)

/-- Store (create or overwrite) the file at `p` with mtime `m`
(`shutil.copy2` preserves the source mtime at the destination). -/
def setFile (files : List (FPath × Nat)) (p : FPath) (m : Nat) : List (FPath × Nat) :=
  (p, m) :: files.filter (fun f => !(f.1 == p))

/-- `Path.unlink`: remove the file stored at `p`. -/
def rmFile (files : List (FPath × Nat)) (p : FPath) : List (FPath × Nat) :=
  files.filter (fun f => !(f.1 == p))

/-- `mkdir(parents=True, exist_ok=True)`: add `p` and all its ancestors to
the directory list. -/
def mkdirParents (p : FPath) (dirs : List FPath) : List FPath :=
  (p.inits.filter (fun q => !(q == ([] : FPath)) && !(dirs.contains q))) ++ dirs

/-- `any(current.iterdir())`: `cur` has an immediate child file or
directory. -/
def hasChild (fs : FileSys) (cur : FPath) : Bool :=
  fs.files.any (fun f => f.1.length == cur.length + 1 && isPre cur f.1)
    || fs.dirs.any (fun d => d.length == cur.length + 1 && isPre cur d)

/-- `mapping.update_one`: copy `src` to its mapped destination unless the
destination is at least as new; counters record the outcome. -/
def update_one (getAvid : String → String) (src srcDir dstDir : FPath)
    (srcFiles : List (FPath × Nat)) (fs : FileSys) (c : Counter) : FileSys × Counter :=
  match map_strm_path getAvid src srcDir dstDir with
  | none => (fs, c)
  | some dst =>
    match getMtime srcFiles src with
    | none => (fs, c)
    | some srcM =>
      let fs1 : FileSys := { fs with dirs := mkdirParents dst.dropLast fs.dirs }
      match getMtime fs1.files dst with
      | some dstM =>
        if srcM ≤ dstM then (fs1, { c with files_skipped := c.files_skipped + 1 })
        else ({ fs1 with files := setFile fs1.files dst srcM },
              { c with files_updated := c.files_updated + 1 })
      | none => ({ fs1 with files := setFile fs1.files dst srcM },
                 { c with files_updated := c.files_updated + 1 })

/-- `mapping.delete_empty_dirs_for_path`: walk upward from `cur`, removing
each empty directory, stopping at the first non-empty one; never touches
`dstDir` itself or anything outside it.  A missing directory (the
`FileNotFoundError` branch) just moves to the parent. -/
def walkUp : Nat → FPath → FPath → FileSys → Counter → FileSys × Counter
  | 0, _, _, fs, c => (fs, c)
  | fuel + 1, cur, dstDir, fs, c =>
    if cur ≠ dstDir ∧ isPre dstDir cur = true ∧ dstDir.length < cur.length then
      if !(fs.dirs.contains cur) then
        walkUp fuel cur.dropLast dstDir fs c
      else if hasChild fs cur then (fs, c)
      else
        walkUp fuel cur.dropLast dstDir
          { fs with dirs := fs.dirs.filter (fun d => !(d == cur)) }
          { c with dirs_deleted := c.dirs_deleted + 1 }
    else (fs, c)

/-- The loop of `mapping.delete_empty_dirs_for_path`, started with enough
fuel: each iteration moves to the parent, so `cur.length` steps always
suffice (the loop guard fails once `cur` is no longer longer than
`dstDir`). -/
def delete_empty_dirs_for_path (cur dstDir : FPath) (fs : FileSys) (c : Counter) :
    FileSys × Counter :=
  walkUp cur.length cur dstDir fs c

/-- Guard of `delete_empty_dirs_for_path` as a whole: the source first
returns unchanged when `dst_dir` does not exist. -/
def delete_empty_dirs_for_path_entry (cur dstDir : FPath) (fs : FileSys) (c : Counter) :
    FileSys × Counter :=
  if !(fs.dirs.contains dstDir) then (fs, c)
  else delete_empty_dirs_for_path cur dstDir fs c

/-- `mapping.delete_one`: remove the mapped destination file if it exists,
then prune now-empty ancestor directories. -/
def delete_one (getAvid : String → String) (src srcDir dstDir : FPath)
    (fs : FileSys) (c : Counter) : FileSys × Counter :=
  match map_strm_path getAvid src srcDir dstDir with
  | none => (fs, c)
  | some dst =>
    match getMtime fs.files dst with
    | none => (fs, c)
    | some _ =>
      delete_empty_dirs_for_path_entry dst.dropLast dstDir
        { fs with files := rmFile fs.files dst }
        { c with files_deleted := c.files_deleted + 1 }

/-!
The full-sync pass (`mapping.update`, `mapping.delete`,
`mapping.delete_empty_dirs`, composed by `mapping.main`) works with paths
relative to the two roots: the loop bodies in the source immediately take
`relative_to` of every globbed path.  The source tree is a list of
(relative path, mtime) pairs; the destination tree is a `FileSys` of
paths relative to `dst_dir` (so `[]` stands for `dst_dir` itself, which
always exists and is never produced by `glob`).
-/

/-- Destination path for a source-relative path, as computed inline by
`mapping.update`: `dst_dir / rel.parent / avid / name`. -/
def mapRel (getAvid : String → String) (rel : FPath) : Option FPath :=
  let avid := getAvid (fileName rel)
  if avid = emptyStr then none else some (rel.dropLast ++ [avid, fileName rel])

/-- One iteration of the loop in `mapping.update` for the source file
`s` (relative path and mtime). -/
def updateStep (getAvid : String → String) (st : FileSys × Counter) (s : FPath × Nat) :
    FileSys × Counter :=
  match mapRel getAvid s.1 with
  | none => st
  | some dst =>
    let fs1 : FileSys := { st.1 with dirs := mkdirParents dst.dropLast st.1.dirs }
    match getMtime fs1.files dst with
    | some dstM =>
      if s.2 ≤ dstM then (fs1, { st.2 with files_skipped := st.2.files_skipped + 1 })
      else ({ fs1 with files := setFile fs1.files dst s.2 },
            { st.2 with files_updated := st.2.files_updated + 1 })
    | none => ({ fs1 with files := setFile fs1.files dst s.2 },
               { st.2 with files_updated := st.2.files_updated + 1 })

/-- `mapping.update`: map every `.strm` file under `src_dir` into the
destination tree. -/
def update (getAvid : String → String) (srcFiles : List (FPath × Nat))
    (fs : FileSys) (c : Counter) : FileSys × Counter :=
  (srcFiles.filter (fun s => isStrmName (fileName s.1))).foldl (updateStep getAvid) (fs, c)

/-- The source-relative path recovered from a mirrored destination path by
`mapping.delete`: `dst.relative_to(dst_dir).parent.parent / dst.name`. -/
def backSrc (dst : FPath) : FPath :=
  dst.dropLast.dropLast ++ [fileName dst]

/-- One iteration of the loop in `mapping.delete` for the mirrored file at
`dst`: unlink it unless the recovered source path exists. -/
def deleteStep (srcKeys : List FPath) (st : FileSys × Counter) (dst : FPath) :
    FileSys × Counter :=
  if srcKeys.contains (backSrc dst) then st
  else ({ st.1 with files := rmFile st.1.files dst },
        { st.2 with files_deleted := st.2.files_deleted + 1 })

/-- `mapping.delete`: remove every mirrored `.strm` file whose recovered
source path no longer exists. -/
def delete (srcKeys : List FPath) (fs : FileSys) (c : Counter) : FileSys × Counter :=
  ((fs.files.filter (fun f => isStrmName (fileName f.1))).map (fun f => f.1)).foldl
    (deleteStep srcKeys) (fs, c)

/-- A `.strm`-named entry — file or directory — lies strictly below `d`
(`any(p.glob('**/*.strm'))`; pathlib's glob matches by name regardless
of the entry's type, so a directory named like a `.strm` file counts
too). -/
def strmBeneath (fs : FileSys) (d : FPath) : Bool :=
  fs.files.any (fun f => isPre d f.1 && d.length < f.1.length && isStrmName (fileName f.1))
    || fs.dirs.any (fun e => isPre d e && d.length < e.length && isStrmName (fileName e))

/-- `shutil.rmtree(d)`: drop `d` with every file and directory below it. -/
def rmTree (fs : FileSys) (d : FPath) : FileSys :=
  { files := fs.files.filter (fun f => !(isPre d f.1)),
    dirs := fs.dirs.filter (fun e => !(isPre d e)) }

/-- Lexicographic strict order on component lists (Python `Path` sorts by
its tuple of parts). -/
def pathLt : FPath → FPath → Bool
  | [], [] => false
  | [], _ :: _ => true
  | _ :: _, [] => false
  | a :: as, b :: bs => a < b || (a == b && pathLt as bs)

/-- Insertion sort in decreasing `pathLt` order (`sort(reverse=True)`). -/
def insertDesc (x : FPath) : List FPath → List FPath
  | [] => [x]
  | y :: ys => if pathLt y x then x :: y :: ys else y :: insertDesc x ys

/-- Sort a list of paths in decreasing order. -/
def sortDesc (l : List FPath) : List FPath := l.foldr insertDesc []

/-- `mapping.delete_empty_dirs`: remove, deepest first, every directory
under the destination root that has no `.strm`-named entry anywhere
below it; each removal is an `rmtree` and bumps `dirs_deleted` once. -/
def delete_empty_dirs (fs : FileSys) (c : Counter) : FileSys × Counter :=
  let emptyDirs := fs.dirs.filter (fun d => !(d == ([] : FPath)) && !(strmBeneath fs d))
  ((sortDesc emptyDirs).foldl
      (fun st d => (rmTree st.1 d, { st.2 with dirs_deleted := st.2.dirs_deleted + 1 }))
      (fs, c))

/-- The synchronisation phase of `mapping.main`: reset the counter, then
`update`, `delete`, `delete_empty_dirs`. -/
def full_sync (getAvid : String → String) (srcFiles : List (FPath × Nat))
    (fs : FileSys) : FileSys × Counter :=
  let r1 := update getAvid srcFiles fs Counter.zero
  let r2 := delete (srcFiles.map (fun s => s.1)) r1.1 r1.2
  delete_empty_dirs r2.1 r2.2

/-- Outcome of the validation prologue of `mapping.main`. -/
inductive MainStart where
  | raisedDstNotDir : MainStart
  | raisedSrcNotDir : MainStart
  | ran : Bool → MainStart
deriving Repr, DecidableEq

/-- The validation prologue of `mapping.main`, in source order: raise when
`dst_dir` is not a directory, raise when `src_dir` is not a directory,
then create `dst_dir` when it does not exist (`ran true`) and run the
sync (`ran created`). -/
def main_validate (dstIsDir srcIsDir dstExists : Bool) : MainStart :=
  if !dstIsDir then MainStart.raisedDstNotDir
  else if !srcIsDir then MainStart.raisedSrcNotDir
  else if !dstExists then MainStart.ran true
  else MainStart.ran false

/-!
The monitor (src/monitor.py): pending-change bookkeeping shared between
the watchdog handler and the reconciliation loop.  All five pieces of
lock-protected state are gathered in `MonState`; monotonic time is a
natural number supplied with each event.
-/

/-- `monitor.FULL_SYNC_INTERVAL_SECONDS` (24 hours). -/
def FULL_SYNC_INTERVAL_SECONDS : Nat := 24 * 60 * 60

/-- `monitor.FULL_SYNC_RETRY_SECONDS` (5 minutes). -/
def FULL_SYNC_RETRY_SECONDS : Nat := 5 * 60

/-- The lock-protected monitor state plus the trigger event. -/
structure MonState where
  changed : Finset FPath
  deleted : Finset FPath
  lastEventTime : Nat
  counter : Nat
  trigger : Bool
deriving DecidableEq

/-- The initial state built at the top of `run_mapping_loop`. -/
def MonState.init : MonState :=
  { changed := ∅, deleted := ∅, lastEventTime := 0, counter := 0, trigger := false }

/-- A raw watchdog notification: affected path, directory flag, whether it
is a deletion, and the monotonic time at which it is handled. -/
structure FsEvent where
  path : FPath
  isDir : Bool
  isDelete : Bool
  time : Nat
deriving DecidableEq

/-- `StrmChangeHandler._record_event`: ignore directory events and
non-`.strm` paths; otherwise reclassify the path (latest classification
wins), stamp the clock, bump the counter and set the trigger. -/
def record_event (st : MonState) (ev : FsEvent) : MonState :=
  if ev.isDir then st
  else if pyLower (pySuffix (fileName ev.path)) ≠ strmExt then st
  else
    { changed := if ev.isDelete then st.changed.erase ev.path else insert ev.path st.changed,
      deleted := if ev.isDelete then insert ev.path st.deleted else st.deleted.erase ev.path,
      lastEventTime := ev.time,
      counter := st.counter + 1,
      trigger := true }

/-- A burst of events handled in order. -/
def applyEvents (evs : List FsEvent) (st : MonState) : MonState :=
  evs.foldl record_event st

/-- `monitor.should_clear_full_sync`. -/
def should_clear_full_sync (success : Bool) (counterBefore counterAfter : Nat) : Bool :=
  success && (counterBefore == counterAfter)

/-- The scheduled-full-sync branch of `run_mapping_loop` (deadline
reached): snapshot the counter, run the full sync (its success is the
parameter `success`, the events handled during the run are `evs`), then
either clear both pending sets and the trigger, or set the trigger; the
next deadline uses the normal interval on success and the retry interval
on failure.  Returns (state, cleared, interval). -/
def scheduled_full_sync_step (st : MonState) (success : Bool) (evs : List FsEvent) :
    MonState × Bool × Nat :=
  let counterBefore := st.counter
  let st1 := applyEvents evs st
  let cleared := should_clear_full_sync success counterBefore st1.counter
  let st2 :=
    if cleared then { st1 with changed := ∅, deleted := ∅, trigger := false }
    else { st1 with trigger := true }
  (st2, cleared, if success then FULL_SYNC_INTERVAL_SECONDS else FULL_SYNC_RETRY_SECONDS)

/-- One debounced incremental batch of `run_mapping_loop`: snapshot and
clear both pending sets under the lock, run `run_mapping_incremental` on
the snapshots (per-path failures are given by the oracle `fails`; the
events handled by the watchdog thread while the batch runs are `evs`),
then, when any path failed, re-insert the failed paths into the live
sets, stamp the clock with `now` and set the trigger. -/
def incremental_batch_step (fails : FPath → Bool) (st : MonState) (evs : List FsEvent)
    (now : Nat) : MonState :=
  let changedSnapshot := st.changed
  let deletedSnapshot := st.deleted
  let st1 := applyEvents evs { st with changed := ∅, deleted := ∅ }
  let failedChanged := changedSnapshot.filter (fun p => fails p)
  let failedDeleted := deletedSnapshot.filter (fun p => fails p)
  if failedChanged ≠ ∅ ∨ failedDeleted ≠ ∅ then
    { st1 with
      changed := st1.changed ∪ failedChanged,
      deleted := st1.deleted ∪ failedDeleted,
      lastEventTime := now,
      trigger := true }
  else st1

/-- The deletion-cascade scenario of the spec: `dest/a/ABC-123/ABC-123.strm`
is the sole file of `dest/a/ABC-123`, and `dest/a` is otherwise empty. -/
def cascadeFS : FileSys :=
  { files := [([r"dest", r"a", r"ABC-123", r"ABC-123.strm"], 0)],
    dirs := [[r"dest"], [r"dest", r"a"], [r"dest", r"a", r"ABC-123"]] }

/-- A destination tree whose single directory `a` contains one non-`.strm`
file `a/x.txt`. -/
def nonStrmFS : FileSys :=
  { files := [([r"a", r"x.txt"], 0)], dirs := [[r"a"]] }

/-- States of the pending-change bookkeeping reachable through event
recording, scheduled full syncs, and incremental batches in which no
failed path was reclassified by an event arriving while the batch ran
(the side conditions of `batch`).  Dropping those side conditions makes
the bookkeeping reachable states strictly larger: see the counterexample
accompanying the disjointness theorem. -/
inductive ReachableSafe : MonState → Prop where
  | init : ReachableSafe MonState.init
  | record (st : MonState) (ev : FsEvent) :
      ReachableSafe st → ReachableSafe (record_event st ev)
  | full (st : MonState) (success : Bool) (evs : List FsEvent) :
      ReachableSafe st → ReachableSafe (scheduled_full_sync_step st success evs).1
  | batch (fails : FPath → Bool) (st : MonState) (evs : List FsEvent) (now : Nat) :
      ReachableSafe st →
      (∀ p ∈ st.changed, fails p = true →
        p ∉ (applyEvents evs { st with changed := ∅, deleted := ∅ }).deleted) →
      (∀ p ∈ st.deleted, fails p = true →
        p ∉ (applyEvents evs { st with changed := ∅, deleted := ∅ }).changed) →
      ReachableSafe (incremental_batch_step fails st evs now)

/-!
Helper lemmas about the association-list file store.
-/

theorem getMtime_filter_of_keep (l : List (FPath × Nat)) (pr : FPath × Nat → Bool) (q : FPath)
    (h : ∀ f ∈ l, f.1 = q → pr f = true) :
    getMtime (l.filter pr) q = getMtime l q := by
  induction l with
  | nil => rfl
  | cons a t ih =>
    by_cases ha : a.1 = q
    · have hk : pr a = true := h a (by simp) ha
      simp [getMtime, List.filter_cons, hk, List.find?_cons, ha]
    · have hb : (a.1 == q) = false := by simp [ha]
      by_cases hp : pr a = true
      · simp only [getMtime, List.filter_cons, hp, if_true, List.find?_cons, hb]
        exact ih (fun f hf hfq => h f (by simp [hf]) hfq)
      · simp only [getMtime, List.filter_cons, hp, if_false, Bool.false_eq_true,
          List.find?_cons, hb]
        exact ih (fun f hf hfq => h f (by simp [hf]) hfq)

theorem getMtime_setFile_self (l : List (FPath × Nat)) (p : FPath) (m : Nat) :
    getMtime (setFile l p m) p = some m := by
  simp [getMtime, setFile, List.find?_cons]

theorem getMtime_setFile_ne (l : List (FPath × Nat)) (p q : FPath) (m : Nat) (h : q ≠ p) :
    getMtime (setFile l p m) q = getMtime l q := by
  have hb : (p == q) = false := by
    simp only [beq_eq_false_iff_ne, ne_eq]
    exact fun e => h e.symm
  simp only [setFile, getMtime, List.find?_cons, hb]
  exact getMtime_filter_of_keep l _ q (fun f _ hfq => by simp [hfq, h])

theorem getMtime_rmFile_ne (l : List (FPath × Nat)) (p q : FPath) (h : q ≠ p) :
    getMtime (rmFile l p) q = getMtime l q := by
  exact getMtime_filter_of_keep l _ q (fun f _ hfq => by simp [hfq, h])

theorem getMtime_isSome_of_mem (l : List (FPath × Nat)) (f : FPath × Nat) (h : f ∈ l) :
    getMtime l f.1 ≠ none := by
  induction l with
  | nil => cases h
  | cons a t ih =>
    rcases List.mem_cons.mp h with h1 | h2
    · subst h1
      simp [getMtime, List.find?_cons]
    · by_cases ha : (a.1 == f.1) = true
      · simp [getMtime, List.find?_cons, ha]
      · simp only [getMtime, List.find?_cons, ha]
        exact ih h2

theorem mem_filter_sub (l : List (FPath × Nat)) (pr : FPath × Nat → Bool) (f : FPath × Nat)
    (h : f ∈ l.filter pr) : f ∈ l :=
  (List.mem_filter.mp h).1

/-!
C10 — a source path outside `source_root` is never mapped, even with the
right extension and a non-empty identifier.
-/

/-- C10: for every source path that is not located under `source_root`,
`map_strm_path` returns `none` even when the path has the `.strm`
extension and the identifier extractor returns a non-empty identifier;
only paths inside `source_root` can map to a destination path. -/
theorem map_strm_path_requires_source_root
    (getAvid : String → String) (src srcDir dstDir : FPath)
    (hsuffix : pyLower (pySuffix (fileName src)) = strmExt)
    (_havid : getAvid (fileName src) ≠ emptyStr)
    (houtside : isPre srcDir src = false) :
    map_strm_path getAvid src srcDir dstDir = none := by
  simp [map_strm_path, hsuffix, relativeTo, houtside]

theorem map_strm_path_requires_source_root_witness :
    map_strm_path (fun _ => "ABC-123") [r"other", r"a.strm"] [r"root"] [r"dest"] = none :=
  map_strm_path_requires_source_root (fun _ => "ABC-123") [r"other", r"a.strm"]
    [r"root"] [r"dest"] (by decide) (by decide) (by decide)

/-!
C5 — the mtime policy of `update_one`.
-/

/-- C5: for an eligible source path (mapped destination `dst`, source
present with mtime `srcM`), `update_one` increments `skipped` and leaves
the file store unchanged when the destination mtime is at least `srcM`
(ties favour skipping), and otherwise — destination absent or strictly
older — copies the file (storing `dst` with the source mtime, parents
created) and increments `updated`. -/
theorem update_one_mtime_policy
    (getAvid : String → String) (src srcDir dstDir : FPath)
    (srcFiles : List (FPath × Nat)) (fs : FileSys) (c : Counter) (dst : FPath) (srcM : Nat)
    (hmap : map_strm_path getAvid src srcDir dstDir = some dst)
    (hsrc : getMtime srcFiles src = some srcM) :
    (∀ dstM, getMtime fs.files dst = some dstM → srcM ≤ dstM →
      update_one getAvid src srcDir dstDir srcFiles fs c
        = ({ fs with dirs := mkdirParents dst.dropLast fs.dirs },
           { c with files_skipped := c.files_skipped + 1 }))
    ∧ ((getMtime fs.files dst = none ∨ ∃ dstM, getMtime fs.files dst = some dstM ∧ dstM < srcM) →
      update_one getAvid src srcDir dstDir srcFiles fs c
        = ({ files := setFile fs.files dst srcM, dirs := mkdirParents dst.dropLast fs.dirs },
           { c with files_updated := c.files_updated + 1 })) := by
  constructor
  · intro dstM hdm hle
    simp [update_one, hmap, hsrc, hdm, hle]
  · intro hcase
    rcases hcase with hnone | ⟨dstM, hdm, hlt⟩
    · simp [update_one, hmap, hsrc, hnone]
    · simp [update_one, hmap, hsrc, hdm, Nat.not_le.mpr hlt]

theorem update_one_mtime_policy_witness :
    update_one (fun _ => "ABC-123") [r"root", r"a.strm"] [r"root"] [r"dest"]
      [([r"root", r"a.strm"], 5)]
      { files := [([r"dest", r"ABC-123", r"a.strm"], 5)], dirs := [] } Counter.zero
    = ({ files := [([r"dest", r"ABC-123", r"a.strm"], 5)],
         dirs := mkdirParents [r"dest", r"ABC-123"] [] },
       { Counter.zero with files_skipped := 1 }) :=
  (update_one_mtime_policy (fun _ => "ABC-123") [r"root", r"a.strm"] [r"root"] [r"dest"]
      [([r"root", r"a.strm"], 5)]
      { files := [([r"dest", r"ABC-123", r"a.strm"], 5)], dirs := [] } Counter.zero
      [r"dest", r"ABC-123", r"a.strm"] 5 (by decide) (by decide)).1
    5 (by decide) (by decide)

/-!
Monitor helper lemmas.
-/

theorem record_event_counter_le (st : MonState) (ev : FsEvent) :
    st.counter ≤ (record_event st ev).counter := by
  unfold record_event
  by_cases h1 : ev.isDir = true
  · simp [h1]
  · by_cases h2 : pyLower (pySuffix (fileName ev.path)) ≠ strmExt
    · simp [h1, h2]
    · simp [h1, h2]

theorem applyEvents_counter_le (evs : List FsEvent) (st : MonState) :
    st.counter ≤ (applyEvents evs st).counter := by
  induction evs generalizing st with
  | nil => exact Nat.le_refl _
  | cons e t ih =>
    exact Nat.le_trans (record_event_counter_le st e) (ih (record_event st e))

/-!
C2 — the clear decision after a scheduled full sync.
-/

/-- C2: after a scheduled full sync, the pending sets are cleared exactly
when the run succeeded and the event counter read after the run equals
the snapshot taken before it; when the counter advanced during a
successful run (advancing is the only possibility, the counter being
monotone) both pending sets are left exactly as the events left them. -/
theorem scheduled_full_sync_clear_policy (st : MonState) (success : Bool) (evs : List FsEvent) :
    ((scheduled_full_sync_step st success evs).2.1 = true
        ↔ success = true ∧ st.counter = (applyEvents evs st).counter)
    ∧ ((scheduled_full_sync_step st success evs).2.1 = true
        → (scheduled_full_sync_step st success evs).1.changed = ∅
          ∧ (scheduled_full_sync_step st success evs).1.deleted = ∅)
    ∧ ((scheduled_full_sync_step st success evs).2.1 = false
        → (scheduled_full_sync_step st success evs).1.changed = (applyEvents evs st).changed
          ∧ (scheduled_full_sync_step st success evs).1.deleted = (applyEvents evs st).deleted)
    ∧ (success = true → st.counter ≠ (applyEvents evs st).counter
        → (scheduled_full_sync_step st success evs).1.changed = (applyEvents evs st).changed
          ∧ (scheduled_full_sync_step st success evs).1.deleted = (applyEvents evs st).deleted)
    ∧ st.counter ≤ (applyEvents evs st).counter := by
  rcases Bool.eq_false_or_eq_true success with hs | hs <;> subst hs <;>
    by_cases hc : st.counter = (applyEvents evs st).counter <;>
    simp [scheduled_full_sync_step, should_clear_full_sync, hc, applyEvents_counter_le]

theorem scheduled_full_sync_clear_policy_witness :
    (scheduled_full_sync_step MonState.init true []).1.changed = ∅
    ∧ (scheduled_full_sync_step MonState.init true []).1.deleted = ∅ :=
  (scheduled_full_sync_clear_policy MonState.init true []).2.1 (by decide)

/-!
C1 — what actually happens when a scheduled full sync is not eligible for
clearing.  The claim (and spec) say the next deadline always uses the
shortened retry interval and the trigger is left untouched; the code
picks the interval from `success` alone and always re-signals the
trigger.
-/

/-- C1 counterexample: a successful scheduled full sync during which the
event counter advanced is not cleared, yet the next deadline uses the
normal 24-hour interval, not the shortened retry interval. -/
theorem scheduled_full_sync_interval_counterexample :
    (scheduled_full_sync_step MonState.init true
        [{ path := [r"a.strm"], isDir := false, isDelete := false, time := 1 }]).2.1 = false
    ∧ (scheduled_full_sync_step MonState.init true
        [{ path := [r"a.strm"], isDir := false, isDelete := false, time := 1 }]).2.2
        = FULL_SYNC_INTERVAL_SECONDS
    ∧ FULL_SYNC_INTERVAL_SECONDS ≠ FULL_SYNC_RETRY_SECONDS := by
  refine ⟨by decide, by decide, by decide⟩

/-- C1 (amended): when a scheduled full sync completes but is not
eligible for clearing, the loop leaves the pending sets exactly as the
concurrent events left them, re-signals the trigger, and sets the next
deadline to now plus the shortened retry interval when the sync failed
and to the normal interval when it succeeded (with the counter having
advanced). -/
theorem scheduled_full_sync_not_cleared_amended (st : MonState) (success : Bool)
    (evs : List FsEvent)
    (h : (scheduled_full_sync_step st success evs).2.1 = false) :
    (scheduled_full_sync_step st success evs).1.changed = (applyEvents evs st).changed
    ∧ (scheduled_full_sync_step st success evs).1.deleted = (applyEvents evs st).deleted
    ∧ (scheduled_full_sync_step st success evs).1.trigger = true
    ∧ (scheduled_full_sync_step st success evs).2.2
        = (if success = true then FULL_SYNC_INTERVAL_SECONDS else FULL_SYNC_RETRY_SECONDS) := by
  simp only [scheduled_full_sync_step] at h ⊢
  simp only [h, if_false, Bool.false_eq_true]
  simp

theorem scheduled_full_sync_not_cleared_amended_witness :
    (scheduled_full_sync_step MonState.init false []).1.trigger = true
    ∧ (scheduled_full_sync_step MonState.init false []).2.2 = FULL_SYNC_RETRY_SECONDS := by
  have h := scheduled_full_sync_not_cleared_amended MonState.init false [] (by decide)
  exact ⟨h.2.2.1, by simpa using h.2.2.2⟩

/-!
C7 — failed paths are requeued after an incremental batch.
-/

/-- C7: if a per-path operation fails during an incremental batch, the
path is re-inserted into the live pending set immediately after the
batch, `last_event_time` is stamped with the current time, and the
trigger is re-signalled, so the path participates in the next debounce
cycle. -/
theorem incremental_batch_requeues_failed (fails : FPath → Bool) (st : MonState)
    (evs : List FsEvent) (now : Nat) (P : FPath)
    (hmem : P ∈ st.changed) (hfail : fails P = true) :
    P ∈ (incremental_batch_step fails st evs now).changed
    ∧ (incremental_batch_step fails st evs now).trigger = true
    ∧ (incremental_batch_step fails st evs now).lastEventTime = now := by
  have hPf : P ∈ st.changed.filter (fun p => fails p) :=
    Finset.mem_filter.mpr ⟨hmem, hfail⟩
  have hne : st.changed.filter (fun p => fails p) ≠ ∅ := by
    intro he
    rw [he] at hPf
    exact absurd hPf (Finset.not_mem_empty P)
  unfold incremental_batch_step
  rw [if_pos (Or.inl hne)]
  exact ⟨Finset.mem_union_right _ hPf, rfl, rfl⟩

theorem incremental_batch_requeues_failed_witness :
    ([r"a.strm"] : FPath) ∈ (incremental_batch_step (fun _ => true)
        (record_event MonState.init
          { path := [r"a.strm"], isDir := false, isDelete := false, time := 1 }) [] 7).changed
    ∧ (incremental_batch_step (fun _ => true)
        (record_event MonState.init
          { path := [r"a.strm"], isDir := false, isDelete := false, time := 1 }) [] 7).trigger
        = true
    ∧ (incremental_batch_step (fun _ => true)
        (record_event MonState.init
          { path := [r"a.strm"], isDir := false, isDelete := false, time := 1 }) [] 7).lastEventTime
        = 7 :=
  incremental_batch_requeues_failed (fun _ => true)
    (record_event MonState.init
      { path := [r"a.strm"], isDir := false, isDelete := false, time := 1 })
    [] 7 [r"a.strm"] (by decide) rfl

/-!
C3 — disjointness of the pending sets.  The handler keeps the two sets
disjoint, and so does snapshot-and-clear; but the failed-path requeue
re-inserts failed paths without discarding them from the opposite set,
so an event that reclassifies a failed path while the batch is running
leaves the path in both sets.
-/

theorem record_event_disjoint (st : MonState) (ev : FsEvent)
    (h : ∀ q, ¬(q ∈ st.changed ∧ q ∈ st.deleted)) (q : FPath) :
    ¬(q ∈ (record_event st ev).changed ∧ q ∈ (record_event st ev).deleted) := by
  intro hq
  unfold record_event at hq
  by_cases h1 : ev.isDir = true
  · rw [if_pos h1] at hq
    exact h q hq
  · rw [if_neg h1] at hq
    by_cases h2 : pyLower (pySuffix (fileName ev.path)) ≠ strmExt
    · rw [if_pos h2] at hq
      exact h q hq
    · rw [if_neg h2] at hq
      rcases hq with ⟨hc, hdel⟩
      rcases Bool.eq_false_or_eq_true ev.isDelete with hd | hd
      · simp [hd, Finset.mem_insert, Finset.mem_erase] at hc hdel
        rcases hdel with rfl | hdel
        · exact hc.1 rfl
        · exact h q ⟨hc.2, hdel⟩
      · simp [hd, Finset.mem_insert, Finset.mem_erase] at hc hdel
        rcases hc with rfl | hc
        · exact hdel.1 rfl
        · exact h q ⟨hc, hdel.2⟩

theorem applyEvents_disjoint (evs : List FsEvent) (st : MonState)
    (h : ∀ q, ¬(q ∈ st.changed ∧ q ∈ st.deleted)) (q : FPath) :
    ¬(q ∈ (applyEvents evs st).changed ∧ q ∈ (applyEvents evs st).deleted) := by
  induction evs generalizing st with
  | nil => exact h q
  | cons e t ih =>
    exact ih (record_event st e) (record_event_disjoint st e h)

theorem scheduled_full_sync_disjoint (st : MonState) (success : Bool) (evs : List FsEvent)
    (h : ∀ q, ¬(q ∈ st.changed ∧ q ∈ st.deleted)) (q : FPath) :
    ¬(q ∈ (scheduled_full_sync_step st success evs).1.changed
      ∧ q ∈ (scheduled_full_sync_step st success evs).1.deleted) := by
  unfold scheduled_full_sync_step
  by_cases hcl :
      should_clear_full_sync success st.counter (applyEvents evs st).counter = true
  · simp [hcl]
  · simp only [hcl, Bool.false_eq_true, if_false]
    exact applyEvents_disjoint evs st h q

/-- C3 counterexample: record a change for `a.strm`, then run an
incremental batch in which the update of `a.strm` fails while the
watchdog thread records a deletion of the same path during the batch;
after the requeue the path is in the changed set and the deleted set at
the same time, refuting the claimed invariant for the full transition
system. -/
theorem pending_sets_both_counterexample :
    ([r"a.strm"] : FPath) ∈ (incremental_batch_step (fun _ => true)
        (record_event MonState.init
          { path := [r"a.strm"], isDir := false, isDelete := false, time := 1 })
        [{ path := [r"a.strm"], isDir := false, isDelete := true, time := 2 }] 3).changed
    ∧ ([r"a.strm"] : FPath) ∈ (incremental_batch_step (fun _ => true)
        (record_event MonState.init
          { path := [r"a.strm"], isDir := false, isDelete := false, time := 1 })
        [{ path := [r"a.strm"], isDir := false, isDelete := true, time := 2 }] 3).deleted := by
  refine ⟨by decide, by decide⟩

/-- C3 (amended): in every state reachable through event recording,
scheduled full syncs, and incremental batches whose failed paths were
not reclassified by events arriving during the batch, no path is in the
changed set and the deleted set simultaneously — the most recent
classification wins.  (Without that restriction on batches the invariant
fails, see the counterexample.) -/
theorem pending_sets_disjoint_amended (st : MonState) (h : ReachableSafe st) (p : FPath) :
    ¬(p ∈ st.changed ∧ p ∈ st.deleted) := by
  revert p
  induction h with
  | init =>
    intro p
    simp [MonState.init]
  | record st0 ev _ ih =>
    exact fun p => record_event_disjoint st0 ev ih p
  | full st0 success evs _ ih =>
    exact fun p => scheduled_full_sync_disjoint st0 success evs ih p
  | batch fails st0 evs now _ hcd hdc ih =>
    intro p
    have hst1 : ∀ q, ¬(q ∈ (applyEvents evs { st0 with changed := ∅, deleted := ∅ }).changed
        ∧ q ∈ (applyEvents evs { st0 with changed := ∅, deleted := ∅ }).deleted) :=
      applyEvents_disjoint evs _ (by simp)
    unfold incremental_batch_step
    by_cases hif : st0.changed.filter (fun q => fails q) ≠ ∅
        ∨ st0.deleted.filter (fun q => fails q) ≠ ∅
    · rw [if_pos hif]
      rintro ⟨hc, hd⟩
      rw [Finset.mem_union] at hc hd
      rcases hc with hc | hc <;> rcases hd with hd | hd
      · exact hst1 p ⟨hc, hd⟩
      · rw [Finset.mem_filter] at hd
        exact hdc p hd.1 hd.2 hc
      · rw [Finset.mem_filter] at hc
        exact hcd p hc.1 hc.2 hd
      · rw [Finset.mem_filter] at hc hd
        exact ih p ⟨hc.1, hd.1⟩
    · rw [if_neg hif]
      exact hst1 p

theorem pending_sets_disjoint_amended_witness :
    ¬(([r"a.strm"] : FPath) ∈ (record_event MonState.init
        { path := [r"a.strm"], isDir := false, isDelete := false, time := 1 }).changed
      ∧ ([r"a.strm"] : FPath) ∈ (record_event MonState.init
        { path := [r"a.strm"], isDir := false, isDelete := false, time := 1 }).deleted) :=
  pending_sets_disjoint_amended _
    (ReachableSafe.record _ _ ReachableSafe.init) [r"a.strm"]

/-!
C9 — validation of the roots at the start of `mapping.main`.  The code
checks `dst_dir.is_dir()` before the `dst_dir.exists()`/`mkdir` pair, so
the creation branch is unreachable: an absent `dest_root` (for which
`is_dir()` is false) raises instead of being created.
-/

/-- C9 (code evaluated at the failing input): with `dest_root` absent
(hence not a directory) and `source_root` a directory, `mapping.main`
raises from the `dst_dir.is_dir()` check; the `ran true` outcome, in
which `dest_root` is created, is only reachable from the contradictory
input "a directory that does not exist"; and a missing `source_root`
raises as the claim states. -/
theorem mapping_main_missing_dst_raises :
    main_validate false true false = MainStart.raisedDstNotDir
    ∧ (∀ dd sd de : Bool,
        main_validate dd sd de ≠ MainStart.ran true ∨ (dd = true ∧ de = false))
    ∧ main_validate true false true = MainStart.raisedSrcNotDir := by decide

/-!
Path-prefix helper lemmas.
-/

theorem isPre_refl (l : FPath) : isPre l l = true := by
  induction l with
  | nil => rfl
  | cons a t ih => simp [isPre, ih]

theorem isPre_nil_right (d : FPath) (h : isPre d [] = true) : d = [] := by
  cases d with
  | nil => rfl
  | cons a t => simp [isPre] at h

theorem isPre_length_le (a b : FPath) (h : isPre a b = true) : a.length ≤ b.length := by
  induction a generalizing b with
  | nil => exact Nat.zero_le _
  | cons x xs ih =>
    cases b with
    | nil => simp [isPre] at h
    | cons y ys =>
      simp only [isPre, Bool.and_eq_true] at h
      simpa [Nat.succ_le_succ_iff] using ih ys h.2

theorem isPre_trans (a b c : FPath) (hab : isPre a b = true) (hbc : isPre b c = true) :
    isPre a c = true := by
  induction a generalizing b c with
  | nil => rfl
  | cons x xs ih =>
    cases b with
    | nil => simp [isPre] at hab
    | cons y ys =>
      cases c with
      | nil => simp [isPre] at hbc
      | cons z zs =>
        simp only [isPre, Bool.and_eq_true, beq_iff_eq] at hab hbc ⊢
        exact ⟨hab.1.trans hbc.1, ih ys zs hab.2 hbc.2⟩

theorem isPre_append (a t : FPath) : isPre a (a ++ t) = true := by
  induction a with
  | nil => rfl
  | cons x xs ih => simp [isPre, ih]

theorem contains_iff_mem (l : List FPath) (x : FPath) : l.contains x = true ↔ x ∈ l := by
  simp

theorem fileName_mem (q : FPath) (h : q ≠ []) : fileName q ∈ q := by
  induction q with
  | nil => exact absurd rfl h
  | cons a t ih =>
    cases t with
    | nil => simp [fileName, emptyStr]
    | cons b u =>
      have : fileName (a :: b :: u) = fileName (b :: u) := by
        simp [fileName, List.getLastD]
      rw [this]
      exact List.mem_cons_of_mem a (ih (by simp))

/-!
C6 — the behaviour of `delete_one`: the upward walk never removes the
destination root or anything outside it, a missing destination is a
no-op, and the spec's cascade scenario removes exactly two directories.
-/

theorem walkUp_dirs_superset (fuel : Nat) (cur dstDir : FPath) (fs : FileSys) (c : Counter)
    (e : FPath) (he : e ∈ fs.dirs)
    (hout : ¬(isPre dstDir e = true ∧ dstDir.length < e.length)) :
    e ∈ (walkUp fuel cur dstDir fs c).1.dirs := by
  induction fuel generalizing cur fs c with
  | zero => exact he
  | succ n ih =>
    unfold walkUp
    by_cases hg : cur ≠ dstDir ∧ isPre dstDir cur = true ∧ dstDir.length < cur.length
    · rw [if_pos hg]
      by_cases hd : fs.dirs.contains cur = true
      · simp only [hd, Bool.not_true, Bool.false_eq_true, if_false]
        by_cases hchild : hasChild fs cur = true
        · rw [if_pos hchild]
          exact he
        · rw [if_neg hchild]
          refine ih cur.dropLast _ _ ?_
          rw [List.mem_filter]
          refine ⟨he, ?_⟩
          have hne : e ≠ cur := by
            intro hec
            exact hout (hec ▸ ⟨hg.2.1, hg.2.2⟩)
          simp [hne]
      · simp only [Bool.not_eq_true] at hd
        simp only [hd, Bool.not_false, if_true]
        exact ih cur.dropLast fs c he
    · rw [if_neg hg]
      exact he

theorem delete_empty_dirs_entry_superset (cur dstDir : FPath) (fs : FileSys) (c : Counter)
    (e : FPath) (he : e ∈ fs.dirs)
    (hout : ¬(isPre dstDir e = true ∧ dstDir.length < e.length)) :
    e ∈ (delete_empty_dirs_for_path_entry cur dstDir fs c).1.dirs := by
  unfold delete_empty_dirs_for_path_entry delete_empty_dirs_for_path
  by_cases hdd : fs.dirs.contains dstDir = true
  · simp only [hdd, Bool.not_true, Bool.false_eq_true, if_false]
    exact walkUp_dirs_superset _ _ _ _ _ e he hout
  · simp only [Bool.not_eq_true] at hdd
    simp only [hdd, Bool.not_false, if_true]
    exact he

/-- C6: (i) when the mapped destination file does not exist, `delete_one`
changes nothing; (ii) `delete_one` never removes a directory that is not
strictly below the destination root — in particular never the root
itself nor anything outside it; (iii) in the spec's cascade scenario the
mirrored file is removed, then its two emptied parent directories, but
not `dest` itself: `files_deleted = 1` and `dirs_deleted = 2`. -/
theorem delete_one_behaviour :
    (∀ (getAvid : String → String) (src srcDir dstDir : FPath) (fs : FileSys) (c : Counter)
        (dst : FPath),
      map_strm_path getAvid src srcDir dstDir = some dst →
      getMtime fs.files dst = none →
      delete_one getAvid src srcDir dstDir fs c = (fs, c))
    ∧ (∀ (getAvid : String → String) (src srcDir dstDir : FPath) (fs : FileSys) (c : Counter)
        (e : FPath),
      e ∈ fs.dirs →
      ¬(isPre dstDir e = true ∧ dstDir.length < e.length) →
      e ∈ (delete_one getAvid src srcDir dstDir fs c).1.dirs)
    ∧ delete_one (fun _ => "ABC-123") [r"root", r"a", r"ABC-123.strm"] [r"root"] [r"dest"]
        cascadeFS Counter.zero
      = ({ files := [], dirs := [[r"dest"]] }, ⟨0, 0, 0, 1, 2⟩) := by
  refine ⟨?_, ?_, by decide⟩
  · intro getAvid src srcDir dstDir fs c dst hmap hnone
    simp [delete_one, hmap, hnone]
  · intro getAvid src srcDir dstDir fs c e he hout
    cases hmap : map_strm_path getAvid src srcDir dstDir with
    | none => simpa [delete_one, hmap] using he
    | some dst =>
      cases hmt : getMtime fs.files dst with
      | none => simpa [delete_one, hmap, hmt] using he
      | some m =>
        simp only [delete_one, hmap, hmt]
        exact delete_empty_dirs_entry_superset _ _ _ _ e he hout

theorem delete_one_behaviour_witness :
    delete_one (fun _ => "ABC-123") [r"root", r"b.strm"] [r"root"] [r"dest"]
      { files := [], dirs := [] } Counter.zero
    = ({ files := [], dirs := [] }, Counter.zero) :=
  delete_one_behaviour.1 (fun _ => "ABC-123") [r"root", r"b.strm"] [r"root"] [r"dest"]
    { files := [], dirs := [] } Counter.zero [r"dest", r"ABC-123", r"b.strm"]
    (by decide) (by decide)

/-!
C8 — the full-sync directory prune.  `delete_empty_dirs` selects the
directories with no `.strm`-named entry (file or directory) anywhere
beneath them — not the empty ones — and removes each with `rmtree`, so
a directory holding only non-`.strm` files is removed together with
its contents.
-/

theorem mem_insertDesc (x y : FPath) (l : List FPath) :
    x ∈ insertDesc y l ↔ x = y ∨ x ∈ l := by
  induction l with
  | nil => simp [insertDesc]
  | cons a t ih =>
    unfold insertDesc
    by_cases hlt : pathLt a y = true
    · simp [hlt]
    · simp only [hlt, Bool.false_eq_true, if_false, List.mem_cons, ih]
      tauto

theorem mem_sortDesc (x : FPath) (l : List FPath) : x ∈ sortDesc l ↔ x ∈ l := by
  induction l with
  | nil => simp [sortDesc]
  | cons a t ih =>
    show x ∈ insertDesc a (sortDesc t) ↔ _
    rw [mem_insertDesc]
    simp [ih]

theorem isPre_eq_of_length_eq (a b : FPath) (h : isPre a b = true) (hl : a.length = b.length) :
    a = b := by
  induction a generalizing b with
  | nil =>
    cases b with
    | nil => rfl
    | cons y ys => simp at hl
  | cons x xs ih =>
    cases b with
    | nil => simp [isPre] at h
    | cons y ys =>
      simp only [isPre, Bool.and_eq_true, beq_iff_eq] at h
      simp only [List.length_cons, Nat.succ.injEq] at hl
      rw [h.1, ih ys h.2 hl]

theorem strmBeneath_iff (fs : FileSys) (d : FPath) :
    strmBeneath fs d = true
      ↔ (∃ f ∈ fs.files, isPre d f.1 = true ∧ d.length < f.1.length
            ∧ isStrmName (fileName f.1) = true)
        ∨ (∃ e ∈ fs.dirs, isPre d e = true ∧ d.length < e.length
            ∧ isStrmName (fileName e) = true) := by
  simp [strmBeneath, List.any_eq_true, Bool.or_eq_true, Bool.and_eq_true,
    decide_eq_true_eq, and_assoc]

theorem foldRmTree_files (L : List FPath) (fs : FileSys) (c : Counter) :
    ((L.foldl
        (fun st d => (rmTree st.1 d, { st.2 with dirs_deleted := st.2.dirs_deleted + 1 }))
        (fs, c)).1).files
      = fs.files.filter (fun f => L.all (fun d => !(isPre d f.1))) := by
  induction L generalizing fs c with
  | nil => simp
  | cons d t ih =>
    rw [List.foldl_cons, ih]
    rw [show (rmTree fs d).files = fs.files.filter (fun f => !(isPre d f.1)) from rfl]
    rw [List.filter_filter]
    congr 1
    funext f
    simp [List.all_cons, Bool.and_comm]

theorem foldRmTree_dirs (L : List FPath) (fs : FileSys) (c : Counter) :
    ((L.foldl
        (fun st d => (rmTree st.1 d, { st.2 with dirs_deleted := st.2.dirs_deleted + 1 }))
        (fs, c)).1).dirs
      = fs.dirs.filter (fun e => L.all (fun d => !(isPre d e))) := by
  induction L generalizing fs c with
  | nil => simp
  | cons d t ih =>
    rw [List.foldl_cons, ih]
    rw [show (rmTree fs d).dirs = fs.dirs.filter (fun e => !(isPre d e)) from rfl]
    rw [List.filter_filter]
    congr 1
    funext e
    simp [List.all_cons, Bool.and_comm]

theorem foldRmTree_counters (L : List FPath) (fs : FileSys) (c : Counter) :
    ((L.foldl
        (fun st d => (rmTree st.1 d, { st.2 with dirs_deleted := st.2.dirs_deleted + 1 }))
        (fs, c)).2).files_updated = c.files_updated
    ∧ ((L.foldl
        (fun st d => (rmTree st.1 d, { st.2 with dirs_deleted := st.2.dirs_deleted + 1 }))
        (fs, c)).2).files_deleted = c.files_deleted := by
  induction L generalizing fs c with
  | nil => exact ⟨rfl, rfl⟩
  | cons d t ih => exact ih _ _

/-- Membership in the prune worklist of `delete_empty_dirs`. -/
theorem mem_pruneList (fs : FileSys) (d : FPath) :
    (d ∈ sortDesc (fs.dirs.filter
        (fun e => !(e == ([] : FPath)) && !(strmBeneath fs e))))
      ↔ d ∈ fs.dirs ∧ d ≠ [] ∧ strmBeneath fs d = false := by
  rw [mem_sortDesc, List.mem_filter]
  simp [Bool.and_eq_true, and_assoc]

/-- C8 counterexample: the directory `a` of `nonStrmFS` still contains
the file `a/x.txt`, yet `delete_empty_dirs` removes it (together with
the file), because the prune predicate asks for the absence of `.strm`
files beneath, not emptiness. -/
theorem delete_empty_dirs_nonempty_counterexample :
    ([r"a", r"x.txt"], 0) ∈ nonStrmFS.files
    ∧ isPre [r"a"] [r"a", r"x.txt"] = true
    ∧ ([r"a"] : FPath) ∈ nonStrmFS.dirs
    ∧ ([r"a"] : FPath) ∉ (delete_empty_dirs nonStrmFS Counter.zero).1.dirs
    ∧ (delete_empty_dirs nonStrmFS Counter.zero).1.files = [] := by
  refine ⟨by decide, by decide, by decide, by decide, by decide⟩

/-- C8 (amended): the directory-pruning step of full sync removes
exactly the directories under `dest_root` that have no `.strm`-named
entry — file or directory, since glob matches names regardless of the
entry's type — anywhere beneath them, each removal deleting the
directory's remaining contents as well; provided no directory shares
its path with a `.strm` file, every `.strm` file survives the prune;
and in particular a directory whose only content is an empty
`.strm`-named subdirectory is kept while that subdirectory is removed
(`dirs_deleted = 1`). -/
theorem delete_empty_dirs_amended (fs : FileSys) (c : Counter) :
    (∀ e, e ∈ (delete_empty_dirs fs c).1.dirs
        ↔ e ∈ fs.dirs ∧ (e = [] ∨ strmBeneath fs e = true))
    ∧ (∀ f ∈ fs.files, isStrmName (fileName f.1) = true →
        (∀ d ∈ fs.dirs, isStrmName (fileName d) = false) →
        f ∈ (delete_empty_dirs fs c).1.files)
    ∧ (delete_empty_dirs { files := [], dirs := [[r"a"], [r"a", r"ABC-123.strm"]] }
          Counter.zero).1.dirs = [[r"a"]]
    ∧ (delete_empty_dirs { files := [], dirs := [[r"a"], [r"a", r"ABC-123.strm"]] }
          Counter.zero).2.dirs_deleted = 1 := by
  refine ⟨?_, ?_, by decide, by decide⟩
  · intro e
    unfold delete_empty_dirs
    rw [foldRmTree_dirs, List.mem_filter]
    constructor
    · rintro ⟨he, hall⟩
      refine ⟨he, ?_⟩
      by_contra hno
      push_neg at hno
      have hnb : strmBeneath fs e = false := by
        rcases Bool.eq_false_or_eq_true (strmBeneath fs e) with hh | hh
        · exact absurd hh hno.2
        · exact hh
      have hmem : e ∈ sortDesc (fs.dirs.filter
          (fun d => !(d == ([] : FPath)) && !(strmBeneath fs d))) :=
        (mem_pruneList fs e).mpr ⟨he, hno.1, hnb⟩
      have := List.all_eq_true.mp hall e hmem
      rw [isPre_refl] at this
      simp at this
    · rintro ⟨he, hcase⟩
      refine ⟨he, List.all_eq_true.mpr ?_⟩
      intro d hd
      rcases (mem_pruneList fs d).mp hd with ⟨_, hdne, hdnb⟩
      rcases Bool.eq_false_or_eq_true (isPre d e) with hpre | hpre
      case inr => simp [hpre]
      · exfalso
        rcases hcase with rfl | hsb
        · exact hdne (isPre_nil_right d hpre)
        · rcases (strmBeneath_iff fs e).mp hsb with
            ⟨f, hf, hef, hel, hstrm⟩ | ⟨w, hw, hew, hewl, hwstrm⟩
          · have : strmBeneath fs d = true :=
              (strmBeneath_iff fs d).mpr
                (Or.inl ⟨f, hf, isPre_trans d e f.1 hpre hef,
                  Nat.lt_of_le_of_lt (isPre_length_le d e hpre) hel, hstrm⟩)
            rw [this] at hdnb
            cases hdnb
          · have : strmBeneath fs d = true :=
              (strmBeneath_iff fs d).mpr
                (Or.inr ⟨w, hw, isPre_trans d e w hpre hew,
                  Nat.lt_of_le_of_lt (isPre_length_le d e hpre) hewl, hwstrm⟩)
            rw [this] at hdnb
            cases hdnb
  · intro f hf hstrm hwf
    unfold delete_empty_dirs
    rw [foldRmTree_files, List.mem_filter]
    refine ⟨hf, List.all_eq_true.mpr ?_⟩
    intro d hd
    rcases (mem_pruneList fs d).mp hd with ⟨hdd, hdne, hdnb⟩
    rcases Bool.eq_false_or_eq_true (isPre d f.1) with hpre | hpre
    case inr => simp [hpre]
    · exfalso
      by_cases heq : d = f.1
      · rw [heq] at hdd
        have := hwf f.1 hdd
        rw [hstrm] at this
        cases this
      · have hlt : d.length < f.1.length := by
          rcases Nat.lt_or_ge d.length f.1.length with hlt | hge
          · exact hlt
          · exact absurd
              (isPre_eq_of_length_eq d f.1 hpre
                (Nat.le_antisymm (isPre_length_le d f.1 hpre) hge)) heq
        have : strmBeneath fs d = true :=
          (strmBeneath_iff fs d).mpr (Or.inl ⟨f, hf, hpre, hlt, hstrm⟩)
        rw [this] at hdnb
        cases hdnb

theorem delete_empty_dirs_amended_witness :
    (([r"b.strm"], 0) : FPath × Nat)
      ∈ (delete_empty_dirs { files := [([r"b.strm"], 0)], dirs := [] } Counter.zero).1.files :=
  (delete_empty_dirs_amended { files := [([r"b.strm"], 0)], dirs := [] } Counter.zero).2.1
    ([r"b.strm"], 0) (by decide) (by decide) (by decide)

/-!
C4 — idempotence of the full sync.  Helper lemmas about `updateStep`,
`deleteStep`, `mapRel` and the prune, then the idempotence theorem.
-/

theorem getMtime_eq_none_iff (l : List (FPath × Nat)) (d : FPath) :
    getMtime l d = none ↔ ∀ f ∈ l, (f.1 == d) = false := by
  simp [getMtime, List.find?_eq_none]

theorem getMtime_none_filter (l : List (FPath × Nat)) (pr : FPath × Nat → Bool) (d : FPath)
    (h : getMtime l d = none) : getMtime (l.filter pr) d = none := by
  rw [getMtime_eq_none_iff] at h ⊢
  exact fun f hf => h f (mem_filter_sub l pr f hf)

theorem getMtime_rmFile_self (l : List (FPath × Nat)) (d : FPath) :
    getMtime (rmFile l d) d = none := by
  rw [getMtime_eq_none_iff]
  intro f hf
  have := (List.mem_filter.mp hf).2
  rcases Bool.eq_false_or_eq_true (f.1 == d) with h1 | h1
  · rw [h1] at this
    cases this
  · exact h1

theorem isPre_iff_append (a b : FPath) : isPre a b = true ↔ ∃ t, a ++ t = b := by
  constructor
  · intro h
    induction a generalizing b with
    | nil => exact ⟨b, rfl⟩
    | cons x xs ih =>
      cases b with
      | nil => simp [isPre] at h
      | cons y ys =>
        simp only [isPre, Bool.and_eq_true, beq_iff_eq] at h
        obtain ⟨t, ht⟩ := ih ys h.2
        exact ⟨t, by rw [List.cons_append, ht, h.1]⟩
  · rintro ⟨t, rfl⟩
    exact isPre_append a t

theorem mapRel_eq (g : String → String) (r dst : FPath) (h : mapRel g r = some dst) :
    g (fileName r) ≠ emptyStr ∧ dst = r.dropLast ++ [g (fileName r), fileName r] := by
  unfold mapRel at h
  by_cases hv : g (fileName r) = emptyStr
  · rw [if_pos hv] at h
    cases h
  · rw [if_neg hv] at h
    exact ⟨hv, (Option.some_inj.mp h).symm⟩

theorem fileName_concat (xs : FPath) (a : String) : fileName (xs ++ [a]) = a := by
  simp [fileName, List.getLastD_concat]

theorem fileName_mapRel (g : String → String) (r dst : FPath) (h : mapRel g r = some dst) :
    fileName dst = fileName r := by
  obtain ⟨-, hdst⟩ := mapRel_eq g r dst h
  rw [hdst, show r.dropLast ++ [g (fileName r), fileName r]
      = (r.dropLast ++ [g (fileName r)]) ++ [fileName r] by simp]
  exact fileName_concat _ _

theorem backSrc_mapRel (g : String → String) (r dst : FPath) (hr : r ≠ [])
    (h : mapRel g r = some dst) : backSrc dst = r := by
  obtain ⟨-, hdst⟩ := mapRel_eq g r dst h
  rcases List.eq_nil_or_concat r with rfl | ⟨q, a, rfl⟩
  · exact absurd rfl hr
  · rw [List.concat_eq_append] at hdst ⊢
    rw [hdst, fileName_concat, List.dropLast_concat]
    unfold backSrc
    rw [show q ++ [g a, a] = (q ++ [g a]) ++ [a] by simp]
    rw [List.dropLast_concat, List.dropLast_concat, fileName_concat]

theorem isStrmName_empty : isStrmName emptyStr = false := by decide

theorem strm_fileName_ne_nil (r : FPath) (h : isStrmName (fileName r) = true) : r ≠ [] := by
  intro hr
  subst hr
  rw [show fileName [] = emptyStr from rfl, isStrmName_empty] at h
  cases h

theorem updateStep_none (g : String → String) (st : FileSys × Counter) (s : FPath × Nat)
    (hm : mapRel g s.1 = none) : updateStep g st s = st := by
  simp [updateStep, hm]

theorem updateStep_skip (g : String → String) (st : FileSys × Counter) (s : FPath × Nat)
    (dst : FPath) (dm : Nat) (hm : mapRel g s.1 = some dst)
    (hg : getMtime st.1.files dst = some dm) (hle : s.2 ≤ dm) :
    updateStep g st s
      = ({ st.1 with dirs := mkdirParents dst.dropLast st.1.dirs },
         { st.2 with files_skipped := st.2.files_skipped + 1 }) := by
  simp [updateStep, hm, hg, hle]

theorem updateStep_write_some (g : String → String) (st : FileSys × Counter) (s : FPath × Nat)
    (dst : FPath) (dm : Nat) (hm : mapRel g s.1 = some dst)
    (hg : getMtime st.1.files dst = some dm) (hlt : dm < s.2) :
    updateStep g st s
      = ({ files := setFile st.1.files dst s.2, dirs := mkdirParents dst.dropLast st.1.dirs },
         { st.2 with files_updated := st.2.files_updated + 1 }) := by
  simp [updateStep, hm, hg, Nat.not_le.mpr hlt]

theorem updateStep_write_none (g : String → String) (st : FileSys × Counter) (s : FPath × Nat)
    (dst : FPath) (hm : mapRel g s.1 = some dst) (hg : getMtime st.1.files dst = none) :
    updateStep g st s
      = ({ files := setFile st.1.files dst s.2, dirs := mkdirParents dst.dropLast st.1.dirs },
         { st.2 with files_updated := st.2.files_updated + 1 }) := by
  simp [updateStep, hm, hg]

theorem updateStep_mono (g : String → String) (s : FPath × Nat) (st : FileSys × Counter)
    (d : FPath) (m : Nat) (h : getMtime st.1.files d = some m) :
    ∃ m2, getMtime (updateStep g st s).1.files d = some m2 ∧ m ≤ m2 := by
  cases hm : mapRel g s.1 with
  | none =>
    rw [updateStep_none g st s hm]
    exact ⟨m, h, Nat.le_refl m⟩
  | some dst =>
    cases hg : getMtime st.1.files dst with
    | none =>
      rw [updateStep_write_none g st s dst hm hg]
      have hd : d ≠ dst := by
        intro he
        rw [he, hg] at h
        cases h
      refine ⟨m, ?_, Nat.le_refl m⟩
      show getMtime (setFile st.1.files dst s.2) d = some m
      rw [getMtime_setFile_ne _ _ _ _ hd]
      exact h
    | some dm =>
      by_cases hle : s.2 ≤ dm
      · rw [updateStep_skip g st s dst dm hm hg hle]
        exact ⟨m, h, Nat.le_refl m⟩
      · rw [updateStep_write_some g st s dst dm hm hg (Nat.lt_of_not_le hle)]
        by_cases hd : d = dst
        · subst hd
          have hmd : m = dm := by
            rw [h] at hg
            exact Option.some_inj.mp hg
          refine ⟨s.2, getMtime_setFile_self st.1.files d s.2, ?_⟩
          rw [hmd]
          exact Nat.le_of_lt (Nat.lt_of_not_le hle)
        · refine ⟨m, ?_, Nat.le_refl m⟩
          show getMtime (setFile st.1.files dst s.2) d = some m
          rw [getMtime_setFile_ne _ _ _ _ hd]
          exact h

theorem foldUpdate_mono (g : String → String) (L : List (FPath × Nat))
    (st : FileSys × Counter) (d : FPath) (m : Nat) (h : getMtime st.1.files d = some m) :
    ∃ m2, getMtime ((L.foldl (updateStep g) st).1).files d = some m2 ∧ m ≤ m2 := by
  induction L generalizing st m with
  | nil => exact ⟨m, h, Nat.le_refl m⟩
  | cons s t ih =>
    obtain ⟨m1, h1, hm1⟩ := updateStep_mono g s st d m h
    obtain ⟨m2, h2, hm2⟩ := ih (updateStep g st s) m1 h1
    exact ⟨m2, h2, Nat.le_trans hm1 hm2⟩

theorem foldUpdate_estab (g : String → String) (L : List (FPath × Nat))
    (st : FileSys × Counter) (s : FPath × Nat) (dst : FPath)
    (hs : s ∈ L) (hm : mapRel g s.1 = some dst) :
    ∃ m2, getMtime ((L.foldl (updateStep g) st).1).files dst = some m2 ∧ s.2 ≤ m2 := by
  induction L generalizing st with
  | nil => cases hs
  | cons a t ih =>
    rw [List.foldl_cons]
    rcases List.mem_cons.mp hs with rfl | hs2
    · have hstep : ∃ m1, getMtime ((updateStep g st s).1).files dst = some m1 ∧ s.2 ≤ m1 := by
        cases hg : getMtime st.1.files dst with
        | none =>
          rw [updateStep_write_none g st s dst hm hg]
          exact ⟨s.2, getMtime_setFile_self st.1.files dst s.2, Nat.le_refl _⟩
        | some dm =>
          by_cases hle : s.2 ≤ dm
          · rw [updateStep_skip g st s dst dm hm hg hle]
            exact ⟨dm, hg, hle⟩
          · rw [updateStep_write_some g st s dst dm hm hg (Nat.lt_of_not_le hle)]
            exact ⟨s.2, getMtime_setFile_self st.1.files dst s.2, Nat.le_refl _⟩
      obtain ⟨m1, h1, hs2⟩ := hstep
      obtain ⟨m2, h2, h12⟩ := foldUpdate_mono g t (updateStep g st s) dst m1 h1
      exact ⟨m2, h2, Nat.le_trans hs2 h12⟩
    · exact ih (updateStep g st a) hs2

theorem foldUpdate_allskip (g : String → String) (L : List (FPath × Nat))
    (st : FileSys × Counter)
    (h : ∀ s ∈ L, ∀ dst, mapRel g s.1 = some dst →
      ∃ m, getMtime st.1.files dst = some m ∧ s.2 ≤ m) :
    ((L.foldl (updateStep g) st).1).files = st.1.files
    ∧ ((L.foldl (updateStep g) st).2).files_updated = st.2.files_updated
    ∧ ((L.foldl (updateStep g) st).2).files_deleted = st.2.files_deleted := by
  induction L generalizing st with
  | nil => exact ⟨rfl, rfl, rfl⟩
  | cons a t ih =>
    rw [List.foldl_cons]
    cases hm : mapRel g a.1 with
    | none =>
      rw [updateStep_none g st a hm]
      exact ih st (fun s hs => h s (List.mem_cons_of_mem a hs))
    | some dst =>
      obtain ⟨m, hgm, hle⟩ := h a (List.mem_cons_self a t) dst hm
      rw [updateStep_skip g st a dst m hm hgm hle]
      exact ih _ (fun s hs => h s (List.mem_cons_of_mem a hs))

theorem mkdirParents_pres (p : FPath) (dirs : List FPath) (P : FPath → Prop)
    (hd : ∀ e ∈ dirs, P e) (hp : ∀ q, isPre q p = true → q ≠ [] → P q) :
    ∀ e ∈ mkdirParents p dirs, P e := by
  intro e he
  unfold mkdirParents at he
  rcases List.mem_append.mp he with h1 | h2
  · have h1m := List.mem_filter.mp h1
    have hne : e ≠ [] := by
      intro hnil
      subst hnil
      simp at h1m
    have hpre : isPre e p = true := by
      obtain ⟨t, ht⟩ := (List.mem_inits e p).mp h1m.1
      rw [← ht]
      exact isPre_append e t
    exact hp e hpre hne
  · exact hd e h2

theorem updateStep_dirs_pres (g : String → String) (s : FPath × Nat) (st : FileSys × Counter)
    (P : FPath → Prop) (hd : ∀ e ∈ st.1.dirs, P e)
    (hstep : ∀ dst, mapRel g s.1 = some dst →
      ∀ q, isPre q dst.dropLast = true → q ≠ [] → P q) :
    ∀ e ∈ (updateStep g st s).1.dirs, P e := by
  cases hm : mapRel g s.1 with
  | none =>
    rw [updateStep_none g st s hm]
    exact hd
  | some dst =>
    cases hg : getMtime st.1.files dst with
    | none =>
      rw [updateStep_write_none g st s dst hm hg]
      exact mkdirParents_pres dst.dropLast st.1.dirs P hd (hstep dst hm)
    | some dm =>
      by_cases hle : s.2 ≤ dm
      · rw [updateStep_skip g st s dst dm hm hg hle]
        exact mkdirParents_pres dst.dropLast st.1.dirs P hd (hstep dst hm)
      · rw [updateStep_write_some g st s dst dm hm hg (Nat.lt_of_not_le hle)]
        exact mkdirParents_pres dst.dropLast st.1.dirs P hd (hstep dst hm)

theorem foldUpdate_dirs_pres (g : String → String) (L : List (FPath × Nat))
    (st : FileSys × Counter) (P : FPath → Prop) (hd : ∀ e ∈ st.1.dirs, P e)
    (hsteps : ∀ s ∈ L, ∀ dst, mapRel g s.1 = some dst →
      ∀ q, isPre q dst.dropLast = true → q ≠ [] → P q) :
    ∀ e ∈ ((L.foldl (updateStep g) st).1).dirs, P e := by
  induction L generalizing st with
  | nil => exact hd
  | cons a t ih =>
    rw [List.foldl_cons]
    exact ih (updateStep g st a)
      (updateStep_dirs_pres g a st P hd (hsteps a (List.mem_cons_self a t)))
      (fun s hs => hsteps s (List.mem_cons_of_mem a hs))

theorem deleteStep_keep (srcKeys : List FPath) (st : FileSys × Counter) (d : FPath)
    (h : srcKeys.contains (backSrc d) = true) : deleteStep srcKeys st d = st := by
  unfold deleteStep
  rw [if_pos h]

theorem deleteStep_kill (srcKeys : List FPath) (st : FileSys × Counter) (d : FPath)
    (h : srcKeys.contains (backSrc d) = false) :
    deleteStep srcKeys st d
      = ({ st.1 with files := rmFile st.1.files d },
         { st.2 with files_deleted := st.2.files_deleted + 1 }) := by
  have hne : ¬ srcKeys.contains (backSrc d) = true := by
    rw [h]
    exact Bool.false_ne_true
  unfold deleteStep
  rw [if_neg hne]

theorem foldDelete_pres (srcKeys : List FPath) (D : List FPath) (st : FileSys × Counter)
    (p : FPath) (hp : srcKeys.contains (backSrc p) = true) :
    getMtime ((D.foldl (deleteStep srcKeys) st).1).files p = getMtime st.1.files p := by
  induction D generalizing st with
  | nil => rfl
  | cons d t ih =>
    rw [List.foldl_cons]
    rcases Bool.eq_false_or_eq_true (srcKeys.contains (backSrc d)) with hc | hc
    · rw [deleteStep_keep srcKeys st d hc]
      exact ih st
    · rw [deleteStep_kill srcKeys st d hc]
      have hdp : p ≠ d := by
        intro he
        rw [← he, hp] at hc
        cases hc
      rw [ih _]
      show getMtime (rmFile st.1.files d) p = getMtime st.1.files p
      exact getMtime_rmFile_ne st.1.files d p hdp

theorem foldDelete_none (srcKeys : List FPath) (D : List FPath) (st : FileSys × Counter)
    (p : FPath) (h : getMtime st.1.files p = none) :
    getMtime ((D.foldl (deleteStep srcKeys) st).1).files p = none := by
  induction D generalizing st with
  | nil => exact h
  | cons d t ih =>
    rw [List.foldl_cons]
    rcases Bool.eq_false_or_eq_true (srcKeys.contains (backSrc d)) with hc | hc
    · rw [deleteStep_keep srcKeys st d hc]
      exact ih st h
    · rw [deleteStep_kill srcKeys st d hc]
      exact ih _ (getMtime_none_filter st.1.files _ p h)

theorem foldDelete_kills (srcKeys : List FPath) (D : List FPath) (st : FileSys × Counter)
    (p : FPath) (hD : p ∈ D) (hc : srcKeys.contains (backSrc p) = false) :
    getMtime ((D.foldl (deleteStep srcKeys) st).1).files p = none := by
  induction D generalizing st with
  | nil => cases hD
  | cons d t ih =>
    rw [List.foldl_cons]
    rcases List.mem_cons.mp hD with rfl | hD2
    · rw [deleteStep_kill srcKeys st p hc]
      exact foldDelete_none srcKeys t _ p (getMtime_rmFile_self st.1.files p)
    · rcases Bool.eq_false_or_eq_true (srcKeys.contains (backSrc d)) with hcd | hcd
      · rw [deleteStep_keep srcKeys st d hcd]
        exact ih _ hD2
      · rw [deleteStep_kill srcKeys st d hcd]
        exact ih _ hD2

theorem foldDelete_subset (srcKeys : List FPath) (D : List FPath) (st : FileSys × Counter)
    (f : FPath × Nat) (h : f ∈ ((D.foldl (deleteStep srcKeys) st).1).files) :
    f ∈ st.1.files := by
  induction D generalizing st with
  | nil => exact h
  | cons d t ih =>
    rw [List.foldl_cons] at h
    rcases Bool.eq_false_or_eq_true (srcKeys.contains (backSrc d)) with hc | hc
    · rw [deleteStep_keep srcKeys st d hc] at h
      exact ih st h
    · rw [deleteStep_kill srcKeys st d hc] at h
      exact mem_filter_sub st.1.files _ f (ih _ h)

theorem foldDelete_counter_updated (srcKeys : List FPath) (D : List FPath)
    (st : FileSys × Counter) :
    ((D.foldl (deleteStep srcKeys) st).2).files_updated = st.2.files_updated := by
  induction D generalizing st with
  | nil => rfl
  | cons d t ih =>
    rw [List.foldl_cons]
    rcases Bool.eq_false_or_eq_true (srcKeys.contains (backSrc d)) with hc | hc
    · rw [deleteStep_keep srcKeys st d hc]
      exact ih st
    · rw [deleteStep_kill srcKeys st d hc]
      exact ih _

theorem foldDelete_dirs (srcKeys : List FPath) (D : List FPath) (st : FileSys × Counter) :
    ((D.foldl (deleteStep srcKeys) st).1).dirs = st.1.dirs := by
  induction D generalizing st with
  | nil => rfl
  | cons d t ih =>
    rw [List.foldl_cons]
    rcases Bool.eq_false_or_eq_true (srcKeys.contains (backSrc d)) with hc | hc
    · rw [deleteStep_keep srcKeys st d hc]
      exact ih st
    · rw [deleteStep_kill srcKeys st d hc]
      exact ih _

theorem foldDelete_id (srcKeys : List FPath) (D : List FPath) (st : FileSys × Counter)
    (hall : ∀ d ∈ D, srcKeys.contains (backSrc d) = true) :
    D.foldl (deleteStep srcKeys) st = st := by
  induction D generalizing st with
  | nil => rfl
  | cons d t ih =>
    rw [List.foldl_cons, deleteStep_keep srcKeys st d (hall d (List.mem_cons_self d t))]
    exact ih st (fun e he => hall e (List.mem_cons_of_mem d he))

theorem prune_getMtime_strm (fs : FileSys) (c : Counter) (p : FPath)
    (hwf : ∀ e ∈ fs.dirs, isStrmName (fileName e) = false)
    (hstrm : isStrmName (fileName p) = true) :
    getMtime ((delete_empty_dirs fs c).1).files p = getMtime fs.files p := by
  unfold delete_empty_dirs
  rw [foldRmTree_files]
  apply getMtime_filter_of_keep
  intro f hf hfp
  apply List.all_eq_true.mpr
  intro d hd
  rcases (mem_pruneList fs d).mp hd with ⟨hdd, hdne, hdnb⟩
  rcases Bool.eq_false_or_eq_true (isPre d f.1) with hpre | hpre
  case inr => simp [hpre]
  exfalso
  rw [hfp] at hpre
  by_cases heq : d = p
  · rw [heq] at hdd
    have := hwf p hdd
    rw [hstrm] at this
    cases this
  · have hlt : d.length < p.length := by
      rcases Nat.lt_or_ge d.length p.length with hlt | hge
      · exact hlt
      · exact absurd
          (isPre_eq_of_length_eq d p hpre
            (Nat.le_antisymm (isPre_length_le d p hpre) hge)) heq
    have : strmBeneath fs d = true :=
      (strmBeneath_iff fs d).mpr (Or.inl ⟨f, hf, by rw [hfp]; exact hpre,
        by rw [hfp]; exact hlt, by rw [hfp]; exact hstrm⟩)
    rw [this] at hdnb
    cases hdnb

theorem full_sync_post (g : String → String) (srcFiles : List (FPath × Nat)) (fs : FileSys)
    (H1 : ∀ e ∈ fs.dirs, isStrmName (fileName e) = false)
    (H2 : ∀ s ∈ srcFiles, ∀ comp ∈ s.1.dropLast, isStrmName comp = false)
    (H3 : ∀ n, isStrmName (g n) = false) :
    (∀ s ∈ srcFiles.filter (fun s => isStrmName (fileName s.1)), ∀ dst,
        mapRel g s.1 = some dst →
        ∃ m, getMtime (full_sync g srcFiles fs).1.files dst = some m ∧ s.2 ≤ m)
    ∧ (∀ f ∈ (full_sync g srcFiles fs).1.files, isStrmName (fileName f.1) = true →
        (srcFiles.map (fun s => s.1)).contains (backSrc f.1) = true)
    ∧ (∀ e ∈ (full_sync g srcFiles fs).1.dirs, isStrmName (fileName e) = false) := by
  have hstages : full_sync g srcFiles fs
      = delete_empty_dirs
          (delete (srcFiles.map (fun s => s.1)) (update g srcFiles fs Counter.zero).1
            (update g srcFiles fs Counter.zero).2).1
          (delete (srcFiles.map (fun s => s.1)) (update g srcFiles fs Counter.zero).1
            (update g srcFiles fs Counter.zero).2).2 := rfl
  rw [hstages]
  set u1 : FileSys × Counter := update g srcFiles fs Counter.zero with hu1
  set d1 : FileSys × Counter
    := delete (srcFiles.map (fun s => s.1)) u1.1 u1.2 with hd1def
  have hu1dirs : ∀ e ∈ u1.1.dirs, isStrmName (fileName e) = false := by
    apply foldUpdate_dirs_pres g (srcFiles.filter (fun s => isStrmName (fileName s.1)))
      (fs, Counter.zero) (fun e => isStrmName (fileName e) = false) H1
    intro s hs dst hm q hq hqne
    obtain ⟨hav, hdst⟩ := mapRel_eq g s.1 dst hm
    have hdress : dst.dropLast = s.1.dropLast ++ [g (fileName s.1)] := by
      rw [hdst, show s.1.dropLast ++ [g (fileName s.1), fileName s.1]
          = (s.1.dropLast ++ [g (fileName s.1)]) ++ [fileName s.1] by simp,
        List.dropLast_concat]
    rw [hdress] at hq
    obtain ⟨t, ht⟩ := (isPre_iff_append q (s.1.dropLast ++ [g (fileName s.1)])).mp hq
    have hmemq : fileName q ∈ s.1.dropLast ++ [g (fileName s.1)] := by
      rw [← ht]
      exact List.mem_append_left t (fileName_mem q hqne)
    rcases List.mem_append.mp hmemq with hin | hin
    · exact H2 s (List.mem_filter.mp hs).1 _ hin
    · rw [List.mem_singleton.mp hin]
      exact H3 _
  have hd1fold : d1 = ((u1.1.files.filter (fun f => isStrmName (fileName f.1))).map
      (fun f => f.1)).foldl (deleteStep (srcFiles.map (fun s => s.1))) (u1.1, u1.2) := rfl
  have hd1dirs : d1.1.dirs = u1.1.dirs := by
    rw [hd1fold]
    exact foldDelete_dirs _ _ _
  refine ⟨?_, ?_, ?_⟩
  · intro s hs dst hm
    have hsmem := List.mem_filter.mp hs
    obtain ⟨m, hm1, hle⟩ := foldUpdate_estab g
      (srcFiles.filter (fun s => isStrmName (fileName s.1))) (fs, Counter.zero) s dst hs hm
    have hm1' : getMtime u1.1.files dst = some m := hm1
    have hne : s.1 ≠ [] := strm_fileName_ne_nil s.1 hsmem.2
    have hback : backSrc dst = s.1 := backSrc_mapRel g s.1 dst hne hm
    have hcont : (srcFiles.map (fun s => s.1)).contains (backSrc dst) = true := by
      rw [hback]
      exact (contains_iff_mem _ _).mpr (List.mem_map.mpr ⟨s, hsmem.1, rfl⟩)
    have hm2 : getMtime d1.1.files dst = getMtime u1.1.files dst := by
      rw [hd1fold]
      exact foldDelete_pres _ _ _ dst hcont
    have hstrmdst : isStrmName (fileName dst) = true := by
      rw [fileName_mapRel g s.1 dst hm]
      exact hsmem.2
    have hdirs_d1 : ∀ e ∈ d1.1.dirs, isStrmName (fileName e) = false := by
      rw [hd1dirs]
      exact hu1dirs
    have hprune := prune_getMtime_strm d1.1 d1.2 dst hdirs_d1 hstrmdst
    refine ⟨m, ?_, hle⟩
    rw [hprune, hm2]
    exact hm1'
  · intro f hf hstrm
    have heq : (delete_empty_dirs d1.1 d1.2).1.files
        = d1.1.files.filter (fun f =>
            (sortDesc (d1.1.dirs.filter
              (fun d => !(d == ([] : FPath)) && !(strmBeneath d1.1 d)))).all
              (fun d => !(isPre d f.1))) :=
      foldRmTree_files _ d1.1 d1.2
    rw [heq] at hf
    have hf1 : f ∈ d1.1.files := mem_filter_sub _ _ _ hf
    by_contra hnc
    have hnc' : (srcFiles.map (fun s => s.1)).contains (backSrc f.1) = false := by
      rcases Bool.eq_false_or_eq_true
          ((srcFiles.map (fun s => s.1)).contains (backSrc f.1)) with h | h
      · exact absurd h hnc
      · exact h
    have hfu : f ∈ u1.1.files := by
      have hf1a := hf1
      rw [hd1fold] at hf1a
      exact foldDelete_subset _ _ _ f hf1a
    have hfD : f.1 ∈ (u1.1.files.filter
        (fun f => isStrmName (fileName f.1))).map (fun f => f.1) :=
      List.mem_map.mpr ⟨f, List.mem_filter.mpr ⟨hfu, hstrm⟩, rfl⟩
    have hkill : getMtime d1.1.files f.1 = none := by
      rw [hd1fold]
      exact foldDelete_kills _ _ _ f.1 hfD hnc'
    exact getMtime_isSome_of_mem d1.1.files f hf1 hkill
  · intro e he
    have heq : (delete_empty_dirs d1.1 d1.2).1.dirs
        = d1.1.dirs.filter (fun e =>
            (sortDesc (d1.1.dirs.filter
              (fun d => !(d == ([] : FPath)) && !(strmBeneath d1.1 d)))).all
              (fun d => !(isPre d e))) :=
      foldRmTree_dirs _ d1.1 d1.2
    rw [heq] at he
    have he1 : e ∈ d1.1.dirs := (List.mem_filter.mp he).1
    rw [hd1dirs] at he1
    exact hu1dirs e he1

theorem full_sync_zero (g : String → String) (srcFiles : List (FPath × Nat)) (fs : FileSys)
    (Hpre1 : ∀ s ∈ srcFiles.filter (fun s => isStrmName (fileName s.1)), ∀ dst,
      mapRel g s.1 = some dst → ∃ m, getMtime fs.files dst = some m ∧ s.2 ≤ m)
    (Hpre2 : ∀ f ∈ fs.files, isStrmName (fileName f.1) = true →
      (srcFiles.map (fun s => s.1)).contains (backSrc f.1) = true) :
    ((full_sync g srcFiles fs).2).files_updated = 0
    ∧ ((full_sync g srcFiles fs).2).files_deleted = 0 := by
  obtain ⟨hfiles, hupd, hdel⟩ := foldUpdate_allskip g
    (srcFiles.filter (fun s => isStrmName (fileName s.1))) (fs, Counter.zero) Hpre1
  have hu1files : (update g srcFiles fs Counter.zero).1.files = fs.files := hfiles
  have hu1upd : (update g srcFiles fs Counter.zero).2.files_updated = 0 := hupd
  have hu1del : (update g srcFiles fs Counter.zero).2.files_deleted = 0 := hdel
  have hall : ∀ d ∈ ((update g srcFiles fs Counter.zero).1.files.filter
      (fun f => isStrmName (fileName f.1))).map (fun f => f.1),
      (srcFiles.map (fun s => s.1)).contains (backSrc d) = true := by
    intro d hd
    obtain ⟨f, hf, rfl⟩ := List.mem_map.mp hd
    have hff := List.mem_filter.mp hf
    refine Hpre2 f ?_ hff.2
    rw [← hu1files]
    exact hff.1
  have hdfold : delete (srcFiles.map (fun s => s.1)) (update g srcFiles fs Counter.zero).1
      (update g srcFiles fs Counter.zero).2
      = (((update g srcFiles fs Counter.zero).1.files.filter
          (fun f => isStrmName (fileName f.1))).map (fun f => f.1)).foldl
        (deleteStep (srcFiles.map (fun s => s.1)))
        ((update g srcFiles fs Counter.zero).1, (update g srcFiles fs Counter.zero).2) := rfl
  have hdid : delete (srcFiles.map (fun s => s.1)) (update g srcFiles fs Counter.zero).1
      (update g srcFiles fs Counter.zero).2
      = ((update g srcFiles fs Counter.zero).1, (update g srcFiles fs Counter.zero).2) := by
    rw [hdfold]
    exact foldDelete_id _ _ _ hall
  have hstages : full_sync g srcFiles fs
      = delete_empty_dirs
          (delete (srcFiles.map (fun s => s.1)) (update g srcFiles fs Counter.zero).1
            (update g srcFiles fs Counter.zero).2).1
          (delete (srcFiles.map (fun s => s.1)) (update g srcFiles fs Counter.zero).1
            (update g srcFiles fs Counter.zero).2).2 := rfl
  have hfin : full_sync g srcFiles fs
      = delete_empty_dirs (update g srcFiles fs Counter.zero).1
          (update g srcFiles fs Counter.zero).2 := by
    rw [hstages, hdid]
  have hprunefold : delete_empty_dirs (update g srcFiles fs Counter.zero).1
      (update g srcFiles fs Counter.zero).2
      = (sortDesc (((update g srcFiles fs Counter.zero).1).dirs.filter
          (fun d => !(d == ([] : FPath))
            && !(strmBeneath ((update g srcFiles fs Counter.zero).1) d)))).foldl
        (fun st d => (rmTree st.1 d, { st.2 with dirs_deleted := st.2.dirs_deleted + 1 }))
        ((update g srcFiles fs Counter.zero).1, (update g srcFiles fs Counter.zero).2) := rfl
  have hcnt := foldRmTree_counters
    (sortDesc (((update g srcFiles fs Counter.zero).1).dirs.filter
      (fun d => !(d == ([] : FPath))
        && !(strmBeneath ((update g srcFiles fs Counter.zero).1) d))))
    (update g srcFiles fs Counter.zero).1 (update g srcFiles fs Counter.zero).2
  constructor
  · rw [hfin, hprunefold, hcnt.1]
    exact hu1upd
  · rw [hfin, hprunefold, hcnt.2]
    exact hu1del

/-- C4: full sync is idempotent.  For a source tree and destination tree
as they can occur on a real filesystem (no destination directory named
like a `.strm` file, no source directory component named like a `.strm`
file, and an identifier extractor whose output never carries the `.strm`
extension — the code raises on such trees instead), running the full
sync pass twice with no intervening filesystem change yields
`files_updated = 0` and `files_deleted = 0` on the second run. -/
theorem full_sync_idempotent (g : String → String) (srcFiles : List (FPath × Nat))
    (fs : FileSys)
    (H1 : ∀ e ∈ fs.dirs, isStrmName (fileName e) = false)
    (H2 : ∀ s ∈ srcFiles, ∀ comp ∈ s.1.dropLast, isStrmName comp = false)
    (H3 : ∀ n, isStrmName (g n) = false) :
    ((full_sync g srcFiles (full_sync g srcFiles fs).1).2).files_updated = 0
    ∧ ((full_sync g srcFiles (full_sync g srcFiles fs).1).2).files_deleted = 0 := by
  obtain ⟨hA1, hA2, hA3⟩ := full_sync_post g srcFiles fs H1 H2 H3
  exact full_sync_zero g srcFiles (full_sync g srcFiles fs).1 hA1 hA2

theorem full_sync_idempotent_witness :
    ((full_sync (fun _ => "AVID") [([r"x", r"a.strm"], 5)]
        (full_sync (fun _ => "AVID") [([r"x", r"a.strm"], 5)] { files := [], dirs := [] }).1).2).files_updated = 0
    ∧ ((full_sync (fun _ => "AVID") [([r"x", r"a.strm"], 5)]
        (full_sync (fun _ => "AVID") [([r"x", r"a.strm"], 5)] { files := [], dirs := [] }).1).2).files_deleted = 0 :=
  full_sync_idempotent (fun _ => "AVID") [([r"x", r"a.strm"], 5)] { files := [], dirs := [] }
    (by decide) (by decide) (fun _ => (by decide : isStrmName "AVID" = false))

end Embyx
